import Mathlib

/-
  Verification of the input-file ingestion and symbol-resolution core of the
  mold linker (src/input-files.cc), via a shallow embedding in Lean 4.

  Machine integers are modelled as Nat / Int with explicit reductions modulo
  2 ^ 64 where the C code performs wrapping 64-bit arithmetic.  Symbol and
  section names are modelled as lists of characters.  Fallible operations
  return Option or a dedicated result type with an explicit fatal outcome.
-/

namespace Mold

/- ELF constants (SysV ABI, elf.h). -/

def SHN_UNDEF : Nat := 0

def SHN_ABS : Nat := 0xfff1

def SHN_COMMON : Nat := 0xfff2

def STB_GLOBAL : Nat := 1

def STB_WEAK : Nat := 2

def STT_SECTION : Nat := 3

def STV_DEFAULT : Nat := 0

def STV_INTERNAL : Nat := 1

def STV_HIDDEN : Nat := 2

def STV_PROTECTED : Nat := 3

def VER_NDX_LOCAL : Nat := 0

def VER_NDX_GLOBAL : Nat := 1

def VERSYM_HIDDEN : Nat := 0x8000

def GRP_COMDAT : Nat := 1

/-- A symbol-table entry, with the fields the ingestion core reads. -/
structure ElfSym where
  st_name : Nat := 0
  st_bind : Nat := STB_GLOBAL
  st_type : Nat := 0
  st_visibility : Nat := STV_DEFAULT
  st_shndx : Nat := 0
  st_value : Nat := 0
deriving Repr, DecidableEq

/- Accessors on symbol entries (elf.h): definedness is read off st_shndx. -/

def ElfSym.is_undef (e : ElfSym) : Bool := e.st_shndx == SHN_UNDEF

def ElfSym.is_common (e : ElfSym) : Bool := e.st_shndx == SHN_COMMON

def ElfSym.is_abs (e : ElfSym) : Bool := e.st_shndx == SHN_ABS

def ElfSym.is_weak (e : ElfSym) : Bool := e.st_bind == STB_WEAK

/-- The per-input-file data that symbol resolution consults: DSO-ness, the
discovery-time priority, and the live-tracing reachability flag. -/
structure InputFile where
  is_dso : Bool := false
  priority : Nat := 0
  is_reachable : Bool := false
deriving Repr, DecidableEq

/-- What a resolved symbol points at: nothing, an input section (by section
index), a section fragment (by fragment index), or, for a versioned-default
alias, its base symbol (by identifier). -/
inductive SymOrigin
  | nothing
  | isec (idx : Nat)
  | frag (idx : Nat)
  | base (id : Nat)
deriving Repr, DecidableEq

/-- Symbol name. -/
abbrev Name := List Char

/-- The mutable resolution state of one interned Symbol.  `esym` caches the
defining symbol-table entry elf_syms[sym_idx] of `file` (meaningful only when
`file` is present), so that the rank of the incumbent is computable. -/
structure SymState where
  file : Option InputFile := none
  esym : ElfSym := {}
  origin : SymOrigin := .nothing
  name : Name := []
  value : Int := 0
  sym_idx : Nat := 0
  ver_idx : Nat := 0
  visibility : Nat := STV_DEFAULT
  is_weak : Bool := false
  is_versioned_default : Bool := false
deriving Repr, DecidableEq

/-- get_rank, class part (input-files.cc): 1 strong defined, 2 weak defined,
3 strong in DSO/archive, 4 weak in DSO/archive, 5 common, 6 common in
archive; the caller supplies 7 for no definition. -/
def get_sym_rank (file : InputFile) (esym : ElfSym) (is_in_archive : Bool) : Nat :=
  if esym.is_common then
    if is_in_archive then 6 else 5
  else if file.is_dso || is_in_archive then
    if esym.st_bind == STB_WEAK then 4 else 3
  else if esym.st_bind == STB_WEAK then 2
  else 1

/-- get_rank on a (file, entry, in-archive) candidate (input-files.cc). -/
def get_rank (file : InputFile) (esym : ElfSym) (is_in_archive : Bool) : Nat :=
  (get_sym_rank file esym is_in_archive <<< 24) + file.priority

/-- get_rank on a symbol: 7 <<< 24 when unresolved, otherwise the rank of the
cached definition, with in-archive standing for the negated reachability of
the owning file (input-files.cc). -/
def get_rank_sym (s : SymState) : Nat :=
  match s.file with
  | none => 7 <<< 24
  | some f => get_rank f s.esym (!f.is_reachable)

/-- The record written by ObjectFile resolve_symbols when a candidate wins. -/
def install_obj (this : InputFile) (esym : ElfSym) (isec : Option Nat)
    (i dv : Nat) (s : SymState) : SymState :=
  { s with
    file := some this
    esym := esym
    origin := match isec with | none => .nothing | some k => .isec k
    value := (esym.st_value : Int)
    sym_idx := i
    ver_idx := dv
    is_weak := esym.is_weak
    is_versioned_default := false }

/-- The guarded update at the heart of ObjectFile resolve_symbols: the
candidate overwrites the incumbent exactly when its rank is strictly
smaller (input-files.cc). -/
def resolve_update (this : InputFile) (esym : ElfSym) (isec : Option Nat)
    (i dv : Nat) (s : SymState) : SymState :=
  if get_rank this esym (!this.is_reachable) < get_rank_sym s then
    install_obj this esym isec i dv s
  else s

/-- One iteration of the ObjectFile resolve_symbols loop: undefined entries
are skipped; non-absolute non-common entries whose section is missing or
dead are skipped; otherwise the rank-guarded update runs.  `secOf` maps a
section index to none (no section) or its liveness. -/
def obj_resolve_entry (this : InputFile) (secOf : Nat → Option Bool)
    (i dv : Nat) (esym : ElfSym) (s : SymState) : SymState :=
  if esym.is_undef then s
  else if !esym.is_abs && !esym.is_common then
    match secOf esym.st_shndx with
    | none => s
    | some false => s
    | some true => resolve_update this esym (some esym.st_shndx) i dv s
  else resolve_update this esym none i dv s

/-- A resolution candidate: the object file, its symbol-table entry, the
bound input section, and the entry index. -/
structure Cand where
  file : InputFile
  esym : ElfSym
  isec : Option Nat
  idx : Nat
deriving Repr, DecidableEq

/-- The rank of a candidate at evaluation time (in-archive is the negated
reachability of its file). -/
def crank (c : Cand) : Nat := get_rank c.file c.esym (!c.file.is_reachable)

/-- The record written by SharedFile resolve_symbols when the DSO definition
wins: the weak flag is set unconditionally (input-files.cc). -/
def install_dso (this : InputFile) (esym : ElfSym) (i verIdx : Nat)
    (s : SymState) : SymState :=
  { s with
    file := some this
    esym := esym
    origin := .nothing
    value := (esym.st_value : Int)
    sym_idx := i
    ver_idx := verIdx
    is_weak := true
    is_versioned_default := false }

/-- The record written for the companion alias of a versioned-default DSO
symbol: only file, origin (back-link to the base symbol), sym_idx and the
versioned-default flag are written (input-files.cc). -/
def install_dso_alias (this : InputFile) (esym : ElfSym) (i baseId : Nat)
    (s2 : SymState) : SymState :=
  { s2 with
    file := some this
    esym := esym
    origin := .base baseId
    sym_idx := i
    is_versioned_default := true }

/-- One iteration of the SharedFile resolve_symbols loop: undefined entries
and symbols with skip_dso are skipped; the base symbol is overwritten under
its lock when the DSO rank wins; when a distinct companion alias exists
(alias2 carries its state and the identifier of the base symbol), the alias
is overwritten likewise under its own lock. -/
def shared_resolve_entry (this : InputFile) (i verIdx : Nat) (esym : ElfSym)
    (skip_dso : Bool) (s : SymState) (alias2 : Option (SymState × Nat)) :
    SymState × Option SymState :=
  if esym.is_undef || skip_dso then (s, alias2.map Prod.fst)
  else
    let s1 := if get_rank this esym false < get_rank_sym s then
                install_dso this esym i verIdx s
              else s
    match alias2 with
    | none => (s1, none)
    | some (s2, baseId) =>
      (s1, some (if get_rank this esym false < get_rank_sym s2 then
                   install_dso_alias this esym i baseId s2
                 else s2))

/-- Key up to the first atsign, as used by the single-argument get_symbol
overload to derive the display name from a key. -/
def upToAt (s : Name) : Name := s.takeWhile (fun c => c ≠ '@')

/-- An interned symbol binding: identity is the key; the display name is
metadata retained from the first insertion. -/
structure Interned where
  key : Name
  name : Name
deriving Repr, DecidableEq

/-- get_symbol with separate key and display name (input-files.cc). -/
def get_symbol (key name : Name) : Interned := ⟨key, name⟩

/-- get_symbol from a key alone: the display name is the key up to the first
atsign (input-files.cc). -/
def get_symbol_key (key : Name) : Interned := ⟨key, upToAt key⟩

/-- One iteration of the SharedFile parse loop over dynamic symbols: computes
the version index (VER_NDX_GLOBAL when there is no versym table or the entry
is undefined, otherwise the versym word with VERSYM_HIDDEN masked off), skips
VER_NDX_LOCAL entries, and interns one binding (bare-name or fully-versioned
key) or, for a versioned default symbol, two bindings.  version_strings gives
the verdef name for a version index. -/
def shared_parse_entry (versNonEmpty : Bool) (versym : Nat) (esym : ElfSym)
    (name : Name) (version_strings : Nat → Name) :
    Option (Interned × Option Interned) :=
  let ver := if !versNonEmpty || esym.is_undef then VER_NDX_GLOBAL
             else versym &&& 0x7fff
  if ver == VER_NDX_LOCAL then none
  else
    let versioned := get_symbol (name ++ '@' :: version_strings ver) name
    if !versNonEmpty || ver == VER_NDX_GLOBAL then
      some (get_symbol_key name, none)
    else if versym &&& VERSYM_HIDDEN != 0 then
      some (versioned, none)
    else
      some (get_symbol_key name, some versioned)

/-- The condition under which SharedFile mark_live_objects enqueues the
provider of a reference: the entry is an undefined non-weak reference whose
symbol has a provider and, when the provider is itself a DSO, only if
allow-shlib-undefined is disabled (input-files.cc). -/
def dso_trace_cond (allow_shlib_undefined : Bool) (esym : ElfSym)
    (symFile : Option InputFile) : Bool :=
  match symFile with
  | none => false
  | some f =>
    esym.is_undef && !esym.is_weak && (!f.is_dso || !allow_shlib_undefined)

/-- One visit of the live tracer: when the interesting-reference guard holds,
is_reachable.test_and_set runs on the provider (files are identified by a
natural number); the feeder fires only for the visit that finds the flag
still clear. -/
def trace_step (st : Nat → Bool) (fired : List Nat) (v : Bool × Nat) :
    (Nat → Bool) × List Nat :=
  if v.1 then
    ((fun x => if x = v.2 then true else st x),
     if st v.2 then fired else fired ++ [v.2])
  else (st, fired)

/-- A whole tracing round: a sequence of guarded visits applied to the
reachability state, collecting the list of feeder invocations. -/
def run_trace (visits : List (Bool × Nat)) (st : Nat → Bool) :
    (Nat → Bool) × List Nat :=
  visits.foldl (fun acc v => trace_step acc.1 acc.2 v) (st, [])

/-- Canonicalization applied by merge_visibility: STV_INTERNAL becomes
STV_HIDDEN (input-files.cc). -/
def canonical_visibility (v : Nat) : Nat :=
  if v == STV_INTERNAL then STV_HIDDEN else v

/-- The restrictiveness order used by merge_visibility: hidden 1,
protected 2, default 3; any other visibility is fatal (input-files.cc). -/
def visibility_priority (v : Nat) : Option Nat :=
  if v == STV_HIDDEN then some 1
  else if v == STV_PROTECTED then some 2
  else if v == STV_DEFAULT then some 3
  else none

/-- Priority with a default for the fatal case, for stating order facts. -/
def vis_pri (v : Nat) : Nat := (visibility_priority v).getD 0

/-- ObjectFile merge_visibility: canonicalize the incoming visibility, then
update_minimum replaces the stored visibility exactly when the incoming
priority is strictly smaller; none models the fatal diagnostic for an
unknown visibility.  (update_minimum itself is declared outside
input-files.cc; modelled from the spec: the stored value is tightened to the
minimum, i.e. replaced only when the comparator says the new value is
strictly smaller.) -/
def merge_visibility (stored incoming : Nat) : Option Nat :=
  match visibility_priority (canonical_visibility incoming),
        visibility_priority stored with
  | some pv, some ps =>
    some (if pv < ps then canonical_visibility incoming else stored)
  | _, _ => none

/-- The visibility stored on a symbol after a sequence of sightings. -/
def merge_visibility_run (init : Nat) (seen : List Nat) : Option Nat :=
  seen.foldlM merge_visibility init

/-- Position of the first atsign in a symbol name, if any. -/
def firstAt (s : Name) : Option Nat := s.findIdx? (fun c => c == '@')

/-- Result of the atsign-version parsing in ObjectFile initialize_symbols. -/
structure VerParse where
  key : Name
  name : Name
  has_symver : Bool
deriving Repr, DecidableEq

/-- The version-suffix handling of ObjectFile initialize_symbols: the display
name is always truncated at the first atsign; a bare atsign or bare double
atsign is otherwise ignored; a double-atsign version makes the unversioned
name the interner key; any other version keeps the full string as the key;
has_symver is set exactly for the non-bare versioned forms
(input-files.cc). -/
def parse_symver (raw : Name) : VerParse :=
  match firstAt raw with
  | none => ⟨raw, raw, false⟩
  | some pos =>
    let name := raw.take pos
    let ver := raw.drop pos
    if ver == ['@'] || ver == ['@', '@'] then ⟨raw, name, false⟩
    else if ['@', '@'].isPrefixOf ver then ⟨name, name, true⟩
    else ⟨raw, name, true⟩

def strReal : Name := ['_', '_', 'r', 'e', 'a', 'l', '_']

def strWrap : Name := ['_', '_', 'w', 'r', 'a', 'p', '_']

/-- The non-wrapped lookup path of initialize_symbols: intern (key, name);
an undefined reference to a symbol whose is_wrapped bit is set is then
rewritten to the wrap-prefixed symbol (input-files.cc). -/
def ordinary_lookup (is_wrapped : Name → Bool) (undef : Bool)
    (key name : Name) : Interned :=
  let sym := get_symbol key name
  if undef && is_wrapped sym.key then
    get_symbol (strWrap ++ key) (strWrap ++ name)
  else sym

/-- Global-symbol materialization of ObjectFile initialize_symbols: version
parsing, then wrap handling: an undefined reference to a real-prefixed name
whose stripped form is in the wrap set resolves to the stripped symbol;
everything else goes through the ordinary lookup (input-files.cc). -/
def materialize_global (wrap is_wrapped : Name → Bool) (esym : ElfSym)
    (raw : Name) : Interned × Bool :=
  (if esym.is_undef && strReal.isPrefixOf (parse_symver raw).name
       && wrap ((parse_symver raw).name.drop 7) then
     get_symbol ((parse_symver raw).key.drop 7)
       ((parse_symver raw).name.drop 7)
   else
     ordinary_lookup is_wrapped esym.is_undef (parse_symver raw).key
       (parse_symver raw).name,
   (parse_symver raw).has_symver)

/-- The symbols array entries produced for the global part of the symbol
table: one interned symbol per entry, never null. -/
def initialize_globals (wrap is_wrapped : Name → Bool)
    (entries : List (ElfSym × Name)) : List (Option Interned) :=
  entries.map (fun e => some (materialize_global wrap is_wrapped e.1 e.2).1)

/-- Outcome of classifying one SHT_GROUP section. -/
inductive GroupAction
  | fatal
  | skip
  | register (signature : Name) (members : List Nat)
deriving Repr, DecidableEq

/-- The broken-GCC signature marker dropped silently. -/
def strWm4 : Name := ['w', 'm', '4', '.']

/-- The SHT_GROUP arm of ObjectFile initialize_sections: the signature comes
from the sh_info symbol (section name for an STT_SECTION symbol, symbol
string table otherwise); an out-of-range sh_info is fatal; signatures with
the wm4-dot marker are dropped; an empty member list is fatal; a first word
of zero is skipped; any other first word that is not GRP_COMDAT is fatal;
otherwise the remaining member words are registered under the signature
(input-files.cc).  sectionName maps a section index to its name in shstrtab;
strtabName maps a string-table offset to the name stored there. -/
def classify_group (elf_syms : List ElfSym) (sectionName : Nat → Name)
    (strtabName : Nat → Name) (sh_info : Nat) (entries : List Nat) :
    GroupAction :=
  match elf_syms.get? sh_info with
  | none => .fatal
  | some esym =>
    let signature := if esym.st_type == STT_SECTION then
                       sectionName esym.st_shndx
                     else strtabName esym.st_name
    if strWm4.isPrefixOf signature then .skip
    else
      match entries with
      | [] => .fatal
      | e0 :: rest =>
        if e0 == 0 then .skip
        else if e0 != GRP_COMDAT then .fatal
        else .register signature rest

/-- A mergeable section after conversion: whether the parent MergedSection
has been resolved, the fragment start offsets in ascending order, and the
section size. -/
structure MergeableSec where
  resolved : Bool := true
  frag_starts : List Nat := []
  size : Nat := 0
deriving Repr, DecidableEq

/-- Index and start offset of the last fragment whose start offset is at
most the given offset. -/
def find_frag (starts : List Nat) (offset : Int) : Option (Nat × Nat) :=
  match starts with
  | [] => none
  | s :: rest =>
    if offset < (s : Int) then none
    else
      match find_frag rest offset with
      | some r => some (r.1 + 1, r.2)
      | none => some (0, s)

/-- Modelled from the spec: MergeableSection get_fragment (declared outside
input-files.cc) maps a byte offset to the fragment containing it and the
intra-fragment offset; an offset outside the section (in particular one byte
past the last fragment, at or beyond the section size) has no fragment,
which the callers treat as fatal. -/
def get_fragment (m : MergeableSec) (offset : Int) : Option (Nat × Int) :=
  if offset < (m.size : Int) then
    match find_frag m.frag_starts offset with
    | some r => some (r.1, offset - (r.2 : Int))
    | none => none
  else none

/-- The symbol-reattachment phase of reattach_section_pieces for one symbol:
absolute, common and undefined entries are skipped, as are symbols whose
defining section is not a resolved mergeable section; otherwise the symbol
is rebound to the fragment containing st_value with the intra-fragment
offset as its value; none models the fatal bad-symbol-value diagnostic
(input-files.cc). -/
def reattach_symbol (mergeable : Nat → Option MergeableSec) (esym : ElfSym)
    (s : SymState) : Option SymState :=
  if esym.is_abs || esym.is_common || esym.is_undef then some s
  else
    match mergeable esym.st_shndx with
    | none => some s
    | some m =>
      if !m.resolved then some s
      else
        match get_fragment m (esym.st_value : Int) with
        | none => none
        | some r => some { s with origin := .frag r.1, value := r.2 }

/-- A relocation as the merge rewriter sees it: target symbol index and
addend. -/
structure Reloc where
  r_sym : Nat
  r_addend : Int
deriving Repr, DecidableEq

/-- Outcome of the relocation-reattachment phase on one relocation. -/
inductive RelocRewrite
  | unchanged
  | fatal
  | rewritten (r2 : Reloc) (fsym : SymState)
deriving Repr, DecidableEq

def strFragment : Name :=
  ['<', 'f', 'r', 'a', 'g', 'm', 'e', 'n', 't', '>']

/-- The relocation-reattachment phase of reattach_section_pieces for one
relocation of an allocated section: relocations whose target entry is not
STT_SECTION or whose section is not mergeable are unchanged; otherwise a
fresh hidden symbol named fragment is synthesized, bound to the fragment
found at st_value plus addend with value in_frag_offset minus addend, and
the relocation is redirected to symbol index nsyms + idx; a missing
fragment is fatal (input-files.cc). -/
def reattach_reloc (this : InputFile) (elf_syms : List ElfSym)
    (mergeable : Nat → Option MergeableSec) (nsyms idx : Nat) (r : Reloc) :
    RelocRewrite :=
  match elf_syms.get? r.r_sym with
  | none => .unchanged
  | some esym =>
    if esym.st_type != STT_SECTION then .unchanged
    else
      match mergeable esym.st_shndx with
      | none => .unchanged
      | some m =>
        match get_fragment m ((esym.st_value : Int) + r.r_addend) with
        | none => .fatal
        | some fr =>
          .rewritten { r with r_sym := nsyms + idx }
            { file := some this
              esym := esym
              origin := .frag fr.1
              name := strFragment
              value := fr.2 - r.r_addend
              sym_idx := r.r_sym
              visibility := STV_HIDDEN }

/-- Modelled from the spec: read_uleb (declared outside input-files.cc)
decodes one ULEB-128 value from the front of the byte stream; none when the
stream ends inside the value. -/
def read_uleb : List Nat → Option (Nat × List Nat)
  | [] => none
  | b :: rest =>
    if b &&& 0x80 == 0 then some (b &&& 0x7f, rest)
    else
      match read_uleb rest with
      | none => none
      | some r => some ((b &&& 0x7f) ||| (r.1 <<< 7), r.2)

/-- Modelled from the spec: read_sleb (declared outside input-files.cc)
decodes one SLEB-128 value from the front of the byte stream; none when the
stream ends inside the value. -/
def read_sleb : List Nat → Option (Int × List Nat)
  | [] => none
  | b :: rest =>
    if b &&& 0x80 == 0 then
      some (if b &&& 0x40 == 0 then ((b &&& 0x7f : Nat) : Int)
            else ((b &&& 0x7f : Nat) : Int) - 0x80, rest)
    else
      match read_sleb rest with
      | none => none
      | some r => some (((b &&& 0x7f : Nat) : Int) + r.1 * 0x80, r.2)

/-- The running decoder state of decode_crel: offset is a wrapping 64-bit
value, the other accumulators are signed. -/
structure CrelState where
  offset : Nat := 0
  type : Int := 0
  symidx : Int := 0
  addend : Int := 0
deriving Repr, DecidableEq

/-- One decoded relocation record, holding the running values at emission
time (input-files.cc emits ElfRel(offset, type, symidx, addend)). -/
structure ElfRel where
  r_offset : Nat
  r_type : Int
  r_sym : Int
  r_addend : Int
deriving Repr, DecidableEq

/-- The offset-delta decode of one CREL record: when the high flag bit is
set an extra ULEB-128 value rides above the in-byte bits, composed on a
wrapping 64-bit accumulator; otherwise the delta is the flag byte shifted
down by the number of flag bits (input-files.cc). -/
def crel_delta (nflags flags : Nat) (bytes : List Nat) :
    Option (Nat × List Nat) :=
  if flags &&& 0x80 != 0 then
    match read_uleb bytes with
    | none => none
    | some r =>
      some (((r.1 <<< (7 - nflags)) ||| ((flags &&& 0x7f) >>> nflags))
              % 2 ^ 64, r.2)
  else some (flags >>> nflags, bytes)

/-- The conditional SLEB accumulation of decode_crel: when the flag bit is
set, the running value increases by one decoded SLEB-128 value. -/
def read_sleb_if (c : Bool) (v : Int) (bytes : List Nat) :
    Option (Int × List Nat) :=
  if c then
    match read_sleb bytes with
    | none => none
    | some r => some (v + r.1, r.2)
  else some (v, bytes)

/-- One iteration of the decode_crel loop: read the flags byte, decode the
offset delta, advance the offset modulo 2 to the 64 scaled by the header
scale, and accumulate symidx (bit 0), type (bit 1) and, in RELA mode,
addend (bit 2) (input-files.cc). -/
def crel_step_flags (is_rela : Bool) (scale : Nat) (st : CrelState)
    (flags : Nat) (p1 : List Nat) : Option (CrelState × List Nat) :=
  (crel_delta (if is_rela then 3 else 2) flags p1).bind fun d =>
    (read_sleb_if (flags &&& 1 != 0) st.symidx d.2).bind fun s1 =>
      (read_sleb_if (flags &&& 2 != 0) st.type s1.2).bind fun s2 =>
        (read_sleb_if (is_rela && flags &&& 4 != 0) st.addend s2.2).map
          fun s3 =>
            ({ offset := (st.offset + (d.1 <<< scale)) % 2 ^ 64,
               type := s2.1, symidx := s1.1, addend := s3.1 }, s3.2)

/-- One iteration of the decode_crel loop on the byte stream: an empty
stream is truncation, otherwise the head byte is the flags byte. -/
def crel_step (is_rela : Bool) (scale : Nat) (st : CrelState) :
    List Nat → Option (CrelState × List Nat)
  | [] => none
  | flags :: p1 => crel_step_flags is_rela scale st flags p1

/-- The decode_crel loop, running until nrels records are emitted; each
iteration emits the running values as one record. -/
def crel_loop (is_rela : Bool) (scale : Nat) :
    Nat → CrelState → List Nat → Option (List ElfRel)
  | 0, _, _ => some []
  | n + 1, st, bytes =>
    match crel_step is_rela scale st bytes with
    | none => none
    | some r =>
      match crel_loop is_rela scale n r.1 r.2 with
      | none => none
      | some recs =>
        some (⟨r.1.offset, r.1.type, r.1.symidx, r.1.addend⟩ :: recs)

/-- Outcome of decoding a CREL section: the fatal unsupported-format
diagnostic, a truncated byte stream, or the decoded records. -/
inductive CrelResult
  | fatal
  | truncated
  | ok (rels : List ElfRel)
deriving Repr, DecidableEq

/-- decode_crel after the header has been read: RELA-flagged input on a
REL-only target is fatal; otherwise run the loop hdr >>> 3 times with
is_rela bit 2 and scale the low two bits (input-files.cc). -/
def decode_crel_hdr (abi_is_rela : Bool) (hdr : Nat) (rest : List Nat) :
    CrelResult :=
  if (hdr &&& 0b100 != 0) && !abi_is_rela then .fatal
  else
    match crel_loop (hdr &&& 0b100 != 0) (hdr &&& 0b11) (hdr >>> 3) {} rest with
    | none => .truncated
    | some recs => .ok recs

/-- decode_crel (input-files.cc): read the ULEB-128 header into a 64-bit
value and decode the records. -/
def decode_crel (abi_is_rela : Bool) (bytes : List Nat) : CrelResult :=
  match read_uleb bytes with
  | none => .truncated
  | some h => decode_crel_hdr abi_is_rela (h.1 % 2 ^ 64) h.2

theorem get_rank_install (this : InputFile) (esym : ElfSym) (isec : Option Nat)
    (i dv : Nat) (s : SymState) :
    get_rank_sym (install_obj this esym isec i dv s) =
      get_rank this esym (!this.is_reachable) := by
  simp [get_rank_sym, install_obj]

theorem resolve_update_fix_le (c : Cand) (dv : Nat) (s : SymState)
    (h : resolve_update c.file c.esym c.isec c.idx dv s = s) :
    get_rank_sym s ≤ crank c := by
  by_contra hlt
  push_neg at hlt
  unfold resolve_update at h
  rw [crank] at hlt
  rw [if_pos hlt] at h
  have := get_rank_install c.file c.esym c.isec c.idx dv s
  rw [h] at this
  omega

/-- C1: a candidate definition overwrites the incumbent resolution exactly
when its rank (class <<< 24 plus file priority, as computed by get_rank from
the source) is strictly smaller; consequently at a fixed point of resolution
the chosen resolution has minimum rank among all candidates, and among
candidates of equal class the chosen file has the smaller priority. -/
theorem resolve_symbols_rank_rule (dv : Nat) (s : SymState) (cands : List Cand)
    (hfix : ∀ c ∈ cands, resolve_update c.file c.esym c.isec c.idx dv s = s) :
    (∀ c : Cand, crank c < get_rank_sym s →
        resolve_update c.file c.esym c.isec c.idx dv s =
          install_obj c.file c.esym c.isec c.idx dv s)
    ∧ (∀ c : Cand, get_rank_sym s ≤ crank c →
        resolve_update c.file c.esym c.isec c.idx dv s = s)
    ∧ (∀ c ∈ cands, get_rank_sym s ≤ crank c)
    ∧ (∀ c ∈ cands, ∀ f, s.file = some f →
        get_sym_rank f s.esym (!f.is_reachable) =
          get_sym_rank c.file c.esym (!c.file.is_reachable) →
        f.priority ≤ c.file.priority) := by
  refine ⟨?_, ?_, ?_, ?_⟩
  · intro c hlt
    rw [crank] at hlt
    unfold resolve_update
    rw [if_pos hlt]
  · intro c hle
    rw [crank] at hle
    unfold resolve_update
    rw [if_neg (by omega)]
  · intro c hc
    exact resolve_update_fix_le c dv s (hfix c hc)
  · intro c hc f hf hcls
    have hle := resolve_update_fix_le c dv s (hfix c hc)
    simp only [get_rank_sym, hf, crank, get_rank, hcls] at hle
    omega

theorem resolve_symbols_rank_rule_witness :
    get_rank_sym { file := some ⟨false, 3, true⟩, esym := { st_shndx := 1 },
                   origin := .isec 1, sym_idx := 2 } ≤
      crank ⟨⟨false, 5, true⟩, { st_shndx := 1 }, some 1, 4⟩ := by
  exact (resolve_symbols_rank_rule 0 _
    [⟨⟨false, 5, true⟩, { st_shndx := 1 }, some 1, 4⟩]
    (by decide)).2.2.1 _ (by decide)

/-- C5: a versioned default DSO symbol (versym neither local, global nor
hidden) yields two interned bindings, keyed by the bare name and by
name-atsign-version; and during that DSO's resolution, whenever the DSO
definition wins for the alias, the alias is overwritten with the DSO as file,
origin pointing at the base symbol, the entry's index and the
versioned-default flag, all other resolution fields being left unchanged. -/
theorem shared_versioned_default_rule :
    (∀ (versym : Nat) (esym : ElfSym) (name : Name)
        (version_strings : Nat → Name),
        esym.is_undef = false →
        versym &&& 0x7fff ≠ VER_NDX_LOCAL →
        versym &&& 0x7fff ≠ VER_NDX_GLOBAL →
        versym &&& VERSYM_HIDDEN = 0 →
        shared_parse_entry true versym esym name version_strings =
          some (⟨name, upToAt name⟩,
                some ⟨name ++ '@' :: version_strings (versym &&& 0x7fff),
                      name⟩))
    ∧ (∀ (this : InputFile) (i verIdx baseId : Nat) (esym : ElfSym)
        (s s2 : SymState),
        esym.is_undef = false →
        get_rank this esym false < get_rank_sym s2 →
        ∃ a, (shared_resolve_entry this i verIdx esym false s
                (some (s2, baseId))).2 = some a
          ∧ a.file = some this
          ∧ a.origin = .base baseId
          ∧ a.sym_idx = i
          ∧ a.is_versioned_default = true
          ∧ a.value = s2.value
          ∧ a.ver_idx = s2.ver_idx
          ∧ a.is_weak = s2.is_weak
          ∧ a.visibility = s2.visibility) := by
  constructor
  · intro versym esym name version_strings hu hl hg hh
    simp [shared_parse_entry, hu, hh, hl, hg, get_symbol, get_symbol_key]
  · intro this i verIdx baseId esym s s2 hu hlt
    refine ⟨install_dso_alias this esym i baseId s2, ?_,
      by simp [install_dso_alias], by simp [install_dso_alias],
      by simp [install_dso_alias], by simp [install_dso_alias],
      by simp [install_dso_alias], by simp [install_dso_alias],
      by simp [install_dso_alias], by simp [install_dso_alias]⟩
    simp only [shared_resolve_entry, hu, Bool.false_or, Bool.false_eq_true,
      if_false, if_pos hlt]

theorem shared_versioned_default_rule_witness :
    shared_parse_entry true 2 { st_shndx := 1 } ['f']
        (fun _ => ['V','1']) =
      some (⟨['f'], ['f']⟩, some ⟨['f', '@', 'V', '1'], ['f']⟩)
    ∧ ∃ a, (shared_resolve_entry ⟨true, 0, true⟩ 4 2 { st_shndx := 1 } false
              {} (some ({}, 9))).2 = some a
        ∧ a.file = some ⟨true, 0, true⟩
        ∧ a.origin = .base 9
        ∧ a.sym_idx = 4
        ∧ a.is_versioned_default = true := by
  constructor
  · exact shared_versioned_default_rule.1 2 { st_shndx := 1 } ['f']
      (fun _ => ['V','1']) rfl (by decide) (by decide) (by decide)
  · obtain ⟨a, h1, h2, h3, h4, h5, -⟩ :=
      shared_versioned_default_rule.2 ⟨true, 0, true⟩ 4 2 9 { st_shndx := 1 }
        {} {} rfl (by decide)
    exact ⟨a, h1, h2, h3, h4, h5⟩

theorem run_trace_aux (visits : List (Bool × Nat)) (st : Nat → Bool)
    (fired : List Nat) (hN : fired.Nodup) (hF : ∀ p ∈ fired, st p = true) :
    (∀ x, st x = true →
      (visits.foldl (fun acc v => trace_step acc.1 acc.2 v) (st, fired)).1 x
        = true)
    ∧ (visits.foldl (fun acc v => trace_step acc.1 acc.2 v) (st, fired)).2.Nodup
    ∧ (∀ p, p ∈ (visits.foldl (fun acc v => trace_step acc.1 acc.2 v)
                  (st, fired)).2 →
        p ∈ fired ∨ st p = false) := by
  induction visits generalizing st fired with
  | nil =>
    refine ⟨fun x hx => hx, hN, fun p hp => .inl hp⟩
  | cons v vs ih =>
    by_cases hv : v.1 = true
    · by_cases hs : st v.2 = true
      · have step : trace_step st fired v =
            ((fun x => if x = v.2 then true else st x), fired) := by
          simp [trace_step, hv, hs]
        have hF2 : ∀ p ∈ fired, (fun x => if x = v.2 then true else st x) p
            = true := by
          intro p hp
          by_cases hpv : p = v.2 <;> simp [hpv, hF p hp]
        obtain ⟨m, n, w⟩ := ih (fun x => if x = v.2 then true else st x)
          fired hN hF2
        refine ⟨?_, ?_, ?_⟩
        · intro x hx
          simp only [List.foldl_cons, step]
          apply m
          by_cases hxv : x = v.2 <;> simp [hxv, hx]
        · simpa only [List.foldl_cons, step] using n
        · intro p hp
          simp only [List.foldl_cons, step] at hp
          rcases w p hp with h | h
          · exact .inl h
          · by_cases hpv : p = v.2
            · rw [if_pos hpv] at h
              exact Bool.noConfusion h
            · rw [if_neg hpv] at h
              exact .inr h
      · have hs0 : st v.2 = false := by simpa using hs
        have step : trace_step st fired v =
            ((fun x => if x = v.2 then true else st x), fired ++ [v.2]) := by
          simp [trace_step, hv, hs0]
        have hnotin : v.2 ∉ fired := fun hin => by
          rw [hF v.2 hin] at hs0; exact Bool.noConfusion hs0
        have hN2 : (fired ++ [v.2]).Nodup := by
          simpa [List.nodup_append, hnotin] using hN
        have hF2 : ∀ p ∈ fired ++ [v.2],
            (fun x => if x = v.2 then true else st x) p = true := by
          intro p hp
          rcases List.mem_append.mp hp with h | h
          · by_cases hpv : p = v.2 <;> simp [hpv, hF p h]
          · simp [List.mem_singleton.mp h]
        obtain ⟨m, n, w⟩ := ih (fun x => if x = v.2 then true else st x)
          (fired ++ [v.2]) hN2 hF2
        refine ⟨?_, ?_, ?_⟩
        · intro x hx
          simp only [List.foldl_cons, step]
          apply m
          by_cases hxv : x = v.2 <;> simp [hxv, hx]
        · simpa only [List.foldl_cons, step] using n
        · intro p hp
          simp only [List.foldl_cons, step] at hp
          rcases w p hp with h | h
          · rcases List.mem_append.mp h with h2 | h2
            · exact .inl h2
            · rw [List.mem_singleton.mp h2]
              exact .inr hs0
          · by_cases hpv : p = v.2
            · rw [if_pos hpv] at h
              exact Bool.noConfusion h
            · rw [if_neg hpv] at h
              exact .inr h
    · have step : trace_step st fired v = (st, fired) := by
        simp [trace_step, hv]
      obtain ⟨m, n, w⟩ := ih st fired hN hF
      exact ⟨fun x hx => by simpa only [List.foldl_cons, step] using m x hx,
        by simpa only [List.foldl_cons, step] using n,
        fun p hp => w p (by simpa only [List.foldl_cons, step] using hp)⟩

/-- C3 (amended): during live tracing the reachability flag of every file
only transitions from false to true and the feeder fires at most once per
file, only for the visit that wins the test-and-set; a DSO enqueues the
provider of a reference exactly for its undefined non-weak references whose
symbol has a provider, where the allow-shlib-undefined opt-out applies only
when the provider is itself a DSO (a non-DSO provider is enqueued regardless
of the flag). -/
theorem mark_live_objects_rule (visits : List (Bool × Nat)) (st : Nat → Bool) :
    (∀ x, st x = true → (run_trace visits st).1 x = true)
    ∧ (run_trace visits st).2.Nodup
    ∧ (∀ p ∈ (run_trace visits st).2, st p = false)
    ∧ (∀ (allow : Bool) (esym : ElfSym) (f : InputFile),
        dso_trace_cond allow esym (some f)
          = (esym.is_undef && !esym.is_weak && (!f.is_dso || !allow)))
    ∧ (∀ (allow : Bool) (esym : ElfSym),
        dso_trace_cond allow esym none = false) := by
  obtain ⟨m, n, w⟩ := run_trace_aux visits st [] List.nodup_nil
    (fun p hp => absurd hp (List.not_mem_nil p))
  refine ⟨m, n, fun p hp => ?_, fun allow esym f => rfl, fun allow esym => rfl⟩
  rcases w p hp with h | h
  · exact absurd h (List.not_mem_nil p)
  · exact h

/-- C3 counterexample: with allow-shlib-undefined enabled, a DSO still
enqueues the (non-DSO) provider of an undefined strong reference, so the
feeder fires although the claim says enqueueing happens only when
allow-shlib-undefined is disabled. -/
theorem mark_live_objects_cx :
    dso_trace_cond true { st_bind := STB_GLOBAL }
        (some ⟨false, 5, false⟩) = true
    ∧ (run_trace
        [(dso_trace_cond true { st_bind := STB_GLOBAL }
            (some ⟨false, 5, false⟩), 7)]
        (fun _ => false)).2 = [7] := by
  constructor
  · rfl
  · rfl

theorem merge_visibility_step (stored v w : Nat)
    (h : merge_visibility stored v = some w) :
    (w = stored ∨ (w = canonical_visibility v ∧ vis_pri w < vis_pri stored))
    ∧ vis_pri w ≤ vis_pri stored
    ∧ vis_pri w ≤ vis_pri (canonical_visibility v) := by
  unfold merge_visibility at h
  cases hv : visibility_priority (canonical_visibility v) with
  | none => rw [hv] at h; exact Option.noConfusion h
  | some pv =>
    cases hs : visibility_priority stored with
    | none => rw [hv, hs] at h; exact Option.noConfusion h
    | some ps =>
      rw [hv, hs] at h
      simp only [Option.some_inj] at h
      by_cases hlt : pv < ps
      · rw [if_pos hlt] at h
        subst h
        refine ⟨.inr ⟨rfl, ?_⟩, ?_, ?_⟩ <;>
          simp only [vis_pri, hv, hs, Option.getD_some] <;> omega
      · rw [if_neg hlt] at h
        subst h
        refine ⟨.inl rfl, Nat.le_refl _, ?_⟩
        simp only [vis_pri, hv, hs, Option.getD_some]
        omega

theorem merge_visibility_run_min (seen : List Nat) (init w : Nat)
    (h : merge_visibility_run init seen = some w) :
    (w = init ∨ w ∈ seen.map canonical_visibility)
    ∧ vis_pri w ≤ vis_pri init
    ∧ (∀ x ∈ seen, vis_pri w ≤ vis_pri (canonical_visibility x)) := by
  induction seen generalizing init with
  | nil =>
    simp only [merge_visibility_run, List.foldlM_nil, Option.pure_def,
      Option.some_inj] at h
    subst h
    exact ⟨.inl rfl, Nat.le_refl _, fun x hx => absurd hx (List.not_mem_nil x)⟩
  | cons a l ih =>
    rw [merge_visibility_run, List.foldlM_cons] at h
    cases hm : merge_visibility init a with
    | none => rw [hm] at h; exact Option.noConfusion h
    | some m =>
      rw [hm] at h
      simp only [Option.bind_eq_bind, Option.some_bind] at h
      obtain ⟨hmem, hle, hall⟩ := ih m h
      obtain ⟨hcase, hle2, hle3⟩ := merge_visibility_step init a m hm
      refine ⟨?_, Nat.le_trans hle hle2, ?_⟩
      · rcases hmem with h1 | h1
        · subst h1
          rcases hcase with h2 | h2
          · exact .inl h2
          · exact .inr (by simp [h2.1])
        · exact .inr (by simp; right; simpa using h1)
      · intro x hx
        rcases List.mem_cons.mp hx with h1 | h1
        · subst h1; exact Nat.le_trans hle hle3
        · exact hall x h1

/-- C8: merge_visibility first canonicalizes STV_INTERNAL to STV_HIDDEN and
then replaces the stored visibility only with a strictly more restrictive one
(hidden < protected < default), so across any sequence of sightings the
stored visibility is monotonically non-increasing and the final visibility is
the minimum over the initial value and all (canonicalized) sightings. -/
theorem merge_visibility_rule :
    canonical_visibility STV_INTERNAL = STV_HIDDEN
    ∧ (∀ stored v w, merge_visibility stored v = some w →
        w = stored
        ∨ (w = canonical_visibility v ∧ vis_pri w < vis_pri stored))
    ∧ (∀ stored v w, merge_visibility stored v = some w →
        vis_pri w ≤ vis_pri stored)
    ∧ (∀ (init : Nat) (seen : List Nat) (w : Nat),
        merge_visibility_run init seen = some w →
        (w = init ∨ w ∈ seen.map canonical_visibility)
        ∧ (∀ x ∈ init :: seen.map canonical_visibility,
            vis_pri w ≤ vis_pri x)) := by
  refine ⟨rfl, ?_, ?_, ?_⟩
  · intro stored v w h
    exact (merge_visibility_step stored v w h).1
  · intro stored v w h
    exact (merge_visibility_step stored v w h).2.1
  · intro init seen w h
    obtain ⟨hmem, hle, hall⟩ := merge_visibility_run_min seen init w h
    refine ⟨hmem, ?_⟩
    intro x hx
    rcases List.mem_cons.mp hx with h1 | h1
    · subst h1; exact hle
    · obtain ⟨y, hy, rfl⟩ := List.mem_map.mp h1
      exact hall y hy

theorem merge_visibility_rule_witness :
    (STV_HIDDEN = STV_DEFAULT
      ∨ STV_HIDDEN ∈ [STV_INTERNAL, STV_PROTECTED].map canonical_visibility)
    ∧ (∀ x ∈ STV_DEFAULT ::
          [STV_INTERNAL, STV_PROTECTED].map canonical_visibility,
        vis_pri STV_HIDDEN ≤ vis_pri x) := by
  exact merge_visibility_rule.2.2.2 STV_DEFAULT [STV_INTERNAL, STV_PROTECTED]
    STV_HIDDEN (by decide)

theorem parse_symver_name_take (raw : Name) :
    ∃ t, raw = (parse_symver raw).name ++ t := by
  unfold parse_symver
  cases h : firstAt raw with
  | none => exact ⟨[], by simp⟩
  | some pos =>
    by_cases h1 : (raw.drop pos == ['@'] || raw.drop pos == ['@', '@']) = true
    · simp only [h1, if_true]
      exact ⟨raw.drop pos, (List.take_append_drop pos raw).symm⟩
    · rw [Bool.not_eq_true] at h1
      by_cases h2 : ['@', '@'].isPrefixOf (raw.drop pos) = true
      · simp only [h1, Bool.false_eq_true, if_false, h2, if_true]
        exact ⟨raw.drop pos, (List.take_append_drop pos raw).symm⟩
      · rw [Bool.not_eq_true] at h2
        simp only [h1, Bool.false_eq_true, if_false, h2]
        exact ⟨raw.drop pos, (List.take_append_drop pos raw).symm⟩

theorem parse_symver_key_cases (raw : Name) :
    (parse_symver raw).key = raw
    ∨ (parse_symver raw).key = (parse_symver raw).name := by
  unfold parse_symver
  cases h : firstAt raw with
  | none => exact .inl rfl
  | some pos =>
    by_cases h1 : (raw.drop pos == ['@'] || raw.drop pos == ['@', '@']) = true
    · simp [h1]
    · rw [Bool.not_eq_true] at h1
      by_cases h2 : ['@', '@'].isPrefixOf (raw.drop pos) = true
      · simp [h1, h2]
      · rw [Bool.not_eq_true] at h2
        simp [h1, h2]

theorem strReal_key_strip (raw f : Name)
    (h : (parse_symver raw).name = strReal ++ f) :
    strReal ++ ((parse_symver raw).key.drop 7) = (parse_symver raw).key := by
  have h7 : strReal.length = 7 := rfl
  obtain ⟨t, ht⟩ := parse_symver_name_take raw
  rcases parse_symver_key_cases raw with hk | hk <;> rw [hk]
  · rw [ht, h, List.append_assoc, ← h7, List.drop_left]
  · rw [h, ← h7, List.drop_left]

/-- C6: with wrap rewriting, an undefined reference to a real-prefixed name
whose stripped form is in the wrap set resolves to the interned stripped
symbol, both key and display name losing the real prefix; any other entry
takes the ordinary interned symbol, which for an undefined reference with
the is_wrapped bit set is rewritten to the wrap-prefixed symbol; in
particular a real-prefixed reference whose stripped form is not in the wrap
set behaves exactly as an ordinary reference to the literal name. -/
theorem initialize_symbols_wrap_rule (wrap is_wrapped : Name → Bool)
    (esym : ElfSym) (raw f : Name) :
    (esym.is_undef = true → (parse_symver raw).name = strReal ++ f →
      wrap f = true →
      (materialize_global wrap is_wrapped esym raw).1 =
        get_symbol ((parse_symver raw).key.drop 7) f
      ∧ strReal ++ ((parse_symver raw).key.drop 7) = (parse_symver raw).key)
    ∧ ((esym.is_undef && strReal.isPrefixOf (parse_symver raw).name
          && wrap ((parse_symver raw).name.drop 7)) = false →
      (materialize_global wrap is_wrapped esym raw).1 =
        ordinary_lookup is_wrapped esym.is_undef (parse_symver raw).key
          (parse_symver raw).name)
    ∧ (∀ (undef : Bool) (key name : Name),
        ordinary_lookup is_wrapped undef key name =
          if undef && is_wrapped key then
            get_symbol (strWrap ++ key) (strWrap ++ name)
          else get_symbol key name) := by
  refine ⟨?_, ?_, ?_⟩
  · intro hu hname hw
    constructor
    · have hpre : strReal.isPrefixOf (parse_symver raw).name = true := by
        rw [hname]
        exact List.isPrefixOf_iff_prefix.mpr (List.prefix_append _ _)
      have hdrop : (parse_symver raw).name.drop 7 = f := by
        have h7 : strReal.length = 7 := rfl
        rw [hname, ← h7, List.drop_left]
      simp [materialize_global, hu, hpre, hw, hdrop]
    · exact strReal_key_strip raw f hname
  · intro hng
    simp [materialize_global, hng]
  · intro undef key name
    rfl

theorem initialize_symbols_wrap_rule_witness :
    (materialize_global (fun n => n == ['f', 'o', 'o']) (fun _ => false)
        { st_shndx := 0 } (strReal ++ ['f', 'o', 'o'])).1 =
      get_symbol ['f', 'o', 'o'] ['f', 'o', 'o'] := by
  have h := (initialize_symbols_wrap_rule (fun n => n == ['f', 'o', 'o'])
      (fun _ => false) { st_shndx := 0 } (strReal ++ ['f', 'o', 'o'])
      ['f', 'o', 'o']).1 rfl (by decide) (by decide)
  exact h.1.trans (by decide)

/-- C7 (amended): version parsing of a global entry: a bare atsign or double
atsign suffix is dropped from the display name with no other effect; a
double-atsign version makes the unversioned name the interner key; any other
version keeps the full versioned string as the key; has_symver is set
exactly for the non-bare forms; every entry materializes to a non-null
symbol, and, provided the wrap rewriting of the entry does not apply, its
display name is the entry name minus the version handling. -/
theorem initialize_symbols_symver_rule (raw : Name) :
    (firstAt raw = none → parse_symver raw = ⟨raw, raw, false⟩)
    ∧ (∀ pos, firstAt raw = some pos →
        (raw.drop pos = ['@'] ∨ raw.drop pos = ['@', '@']) →
        parse_symver raw = ⟨raw, raw.take pos, false⟩)
    ∧ (∀ pos, firstAt raw = some pos →
        ['@', '@'].isPrefixOf (raw.drop pos) = true →
        raw.drop pos ≠ ['@', '@'] →
        parse_symver raw = ⟨raw.take pos, raw.take pos, true⟩)
    ∧ (∀ pos, firstAt raw = some pos →
        ['@', '@'].isPrefixOf (raw.drop pos) = false →
        raw.drop pos ≠ ['@'] →
        parse_symver raw = ⟨raw, raw.take pos, true⟩)
    ∧ (∀ (wrap is_wrapped : Name → Bool) (entries : List (ElfSym × Name)),
        ∀ x ∈ initialize_globals wrap is_wrapped entries, x.isSome = true)
    ∧ (∀ (wrap is_wrapped : Name → Bool) (esym : ElfSym),
        (esym.is_undef && strReal.isPrefixOf (parse_symver raw).name
            && wrap ((parse_symver raw).name.drop 7)) = false →
        is_wrapped (parse_symver raw).key = false →
        (materialize_global wrap is_wrapped esym raw).1.name
          = (parse_symver raw).name) := by
  refine ⟨?_, ?_, ?_, ?_, ?_, ?_⟩
  · intro h
    unfold parse_symver
    rw [h]
  · intro pos hpos hbare
    unfold parse_symver
    rw [hpos]
    rcases hbare with h | h <;> simp [h]
  · intro pos hpos hpre hne
    unfold parse_symver
    rw [hpos]
    have hne1 : raw.drop pos ≠ ['@'] := by
      intro h
      rw [h] at hpre
      exact Bool.noConfusion hpre
    simp [hne1, hne, hpre]
  · intro pos hpos hpre hne1
    unfold parse_symver
    rw [hpos]
    have hne2 : raw.drop pos ≠ ['@', '@'] := by
      intro h
      rw [h] at hpre
      exact Bool.noConfusion hpre
    simp [hne1, hne2, hpre]
  · intro wrap is_wrapped entries x hx
    obtain ⟨e, he, rfl⟩ := List.mem_map.mp hx
    rfl
  · intro wrap is_wrapped esym hng hnw
    simp [materialize_global, hng, ordinary_lookup, get_symbol, hnw]

theorem initialize_symbols_symver_rule_witness :
    parse_symver ['f', '@', '@', 'V'] = ⟨['f'], ['f'], true⟩ := by
  exact (initialize_symbols_symver_rule ['f', '@', '@', 'V']).2.2.1 1
    (by decide) (by decide) (by decide)

/-- C7 counterexample: under wrap rewriting the stored display name is not
the entry name minus version handling: an undefined reference to
real-prefixed foo with foo in the wrap set gets display name foo, although
the entry name has no version suffix at all. -/
theorem initialize_symbols_symver_cx :
    (materialize_global (fun n => n == ['f', 'o', 'o']) (fun _ => false)
        { st_shndx := 0 } (strReal ++ ['f', 'o', 'o'])).1.name
        = ['f', 'o', 'o']
    ∧ (parse_symver (strReal ++ ['f', 'o', 'o'])).name
        = strReal ++ ['f', 'o', 'o']
    ∧ (['f', 'o', 'o'] : Name) ≠ strReal ++ ['f', 'o', 'o'] := by
  refine ⟨by decide, by decide, by decide⟩

/-- C9 (amended): the SHT_GROUP classifier takes the signature from the
sh_info symbol (from the section name when that symbol is STT_SECTION),
silently drops groups whose signature begins with wm4-dot, fails fatally on
an empty member list, silently skips a group whose first word is zero, fails
fatally on any other first word that is not GRP_COMDAT, and otherwise
registers the remaining member words paired with the ComdatGroup for that
signature. -/
theorem initialize_sections_group_rule (elf_syms : List ElfSym)
    (sectionName strtabName : Nat → Name) (sh_info : Nat)
    (entries : List Nat) (esym : ElfSym)
    (hsym : elf_syms.get? sh_info = some esym) :
    (elf_syms.get? sh_info = none →
      classify_group elf_syms sectionName strtabName sh_info entries = .fatal)
    ∧ (∀ signature,
        signature = (if esym.st_type == STT_SECTION then
                       sectionName esym.st_shndx
                     else strtabName esym.st_name) →
        (strWm4.isPrefixOf signature = true →
          classify_group elf_syms sectionName strtabName sh_info entries
            = .skip)
        ∧ (strWm4.isPrefixOf signature = false → entries = [] →
          classify_group elf_syms sectionName strtabName sh_info entries
            = .fatal)
        ∧ (∀ e0 rest, strWm4.isPrefixOf signature = false →
            entries = e0 :: rest → e0 = 0 →
            classify_group elf_syms sectionName strtabName sh_info entries
              = .skip)
        ∧ (∀ e0 rest, strWm4.isPrefixOf signature = false →
            entries = e0 :: rest → e0 ≠ 0 → e0 ≠ GRP_COMDAT →
            classify_group elf_syms sectionName strtabName sh_info entries
              = .fatal)
        ∧ (∀ rest, strWm4.isPrefixOf signature = false →
            entries = GRP_COMDAT :: rest →
            classify_group elf_syms sectionName strtabName sh_info entries
              = .register signature rest)) := by
  have hkey : classify_group elf_syms sectionName strtabName sh_info entries =
      (if strWm4.isPrefixOf (if esym.st_type == STT_SECTION then
            sectionName esym.st_shndx else strtabName esym.st_name) then
         GroupAction.skip
       else
         match entries with
         | [] => GroupAction.fatal
         | e0 :: rest =>
           if e0 == 0 then GroupAction.skip
           else if e0 != GRP_COMDAT then GroupAction.fatal
           else GroupAction.register (if esym.st_type == STT_SECTION then
               sectionName esym.st_shndx else strtabName esym.st_name)
               rest) := by
    unfold classify_group
    rw [hsym]
  constructor
  · intro hnone
    rw [hsym] at hnone
    exact Option.noConfusion hnone
  · intro signature hsig
    subst hsig
    refine ⟨?_, ?_, ?_, ?_, ?_⟩
    · intro hwm
      rw [hkey, if_pos hwm]
    · intro hwm hent
      subst hent
      rw [hkey, if_neg (by rw [hwm]; simp)]
    · intro e0 rest hwm hent he0
      subst hent
      subst he0
      rw [hkey, if_neg (by rw [hwm]; simp)]
      simp
    · intro e0 rest hwm hent he0 heg
      subst hent
      rw [hkey, if_neg (by rw [hwm]; simp)]
      simp [he0, heg]
    · intro rest hwm hent
      subst hent
      rw [hkey, if_neg (by rw [hwm]; simp)]
      simp [GRP_COMDAT]

theorem initialize_sections_group_rule_witness :
    classify_group [{ st_type := 0, st_name := 7 }] (fun _ => ['s','i','g'])
        (fun _ => ['s','i','g']) 0 [GRP_COMDAT, 4, 5]
      = .register ['s','i','g'] [4, 5] := by
  exact ((initialize_sections_group_rule [{ st_type := 0, st_name := 7 }]
      (fun _ => ['s','i','g']) (fun _ => ['s','i','g']) 0 [GRP_COMDAT, 4, 5]
      { st_type := 0, st_name := 7 } rfl).2 ['s','i','g']
      (by decide)).2.2.2.2 [4, 5] (by decide) rfl

/-- C9 counterexample: a well-formed group whose first word is zero (hence
not GRP_COMDAT) is silently skipped rather than rejected fatally, refuting
the claim that any group whose first word is not GRP_COMDAT is fatal. -/
theorem initialize_sections_group_cx :
    classify_group [{ st_type := 0, st_name := 0 }] (fun _ => ['s'])
        (fun _ => ['s']) 0 [0, 4, 5] = .skip
    ∧ (0 : Nat) ≠ GRP_COMDAT := by
  constructor
  · rfl
  · decide

theorem find_frag_spec (starts : List Nat) (offset : Int) (i st : Nat)
    (h : find_frag starts offset = some (i, st)) :
    starts.get? i = some st ∧ (st : Int) ≤ offset := by
  induction starts generalizing i with
  | nil => exact Option.noConfusion h
  | cons s rest ih =>
    unfold find_frag at h
    by_cases hlt : offset < (s : Int)
    · rw [if_pos hlt] at h
      exact Option.noConfusion h
    · rw [if_neg hlt] at h
      cases hr : find_frag rest offset with
      | some r =>
        obtain ⟨a, b⟩ := r
        rw [hr] at h
        simp only [Option.some_inj, Prod.mk.injEq] at h
        obtain ⟨h1, h2⟩ := h
        subst h2
        obtain ⟨hg, hle⟩ := ih a hr
        subst h1
        exact ⟨by simpa using hg, hle⟩
      | none =>
        rw [hr] at h
        simp only [Option.some_inj, Prod.mk.injEq] at h
        obtain ⟨h1, h2⟩ := h
        subst h1
        subst h2
        exact ⟨rfl, Int.not_lt.mp hlt⟩

theorem get_fragment_spec (m : MergeableSec) (offset : Int) (frag : Nat)
    (off : Int) (h : get_fragment m offset = some (frag, off)) :
    ∃ st, m.frag_starts.get? frag = some st
      ∧ (st : Int) + off = offset
      ∧ 0 ≤ off
      ∧ offset < (m.size : Int) := by
  unfold get_fragment at h
  by_cases hsz : offset < (m.size : Int)
  · rw [if_pos hsz] at h
    cases hf : find_frag m.frag_starts offset with
    | none => rw [hf] at h; exact Option.noConfusion h
    | some r =>
      rw [hf] at h
      simp only [Option.some_inj, Prod.mk.injEq] at h
      obtain ⟨h1, h2⟩ := h
      obtain ⟨hg, hle⟩ := find_frag_spec m.frag_starts offset r.1 r.2 (by
        cases r; exact hf)
      subst h1
      subst h2
      exact ⟨r.2, hg, by omega, by omega, hsz⟩
  · rw [if_neg hsz] at h
    exact Option.noConfusion h

/-- C4: after the merge rewriter, a non-absolute, non-common, non-undefined
symbol whose defining section is a resolved mergeable section is rebound to
the fragment containing st_value with the intra-fragment offset as value (a
value outside every fragment is fatal); and a relocation of an allocated
section targeting an STT_SECTION symbol of a mergeable section is redirected
to a fresh hidden symbol named fragment, bound to the fragment found at
st_value plus addend, whose value is the intra-fragment offset minus the
addend, so that value plus addend recovers the original target byte. -/
theorem reattach_section_pieces_rule :
    (∀ (mergeable : Nat → Option MergeableSec) (esym : ElfSym) (s : SymState)
        (m : MergeableSec),
        esym.is_abs = false → esym.is_common = false → esym.is_undef = false →
        mergeable esym.st_shndx = some m → m.resolved = true →
        (get_fragment m (esym.st_value : Int) = none →
          reattach_symbol mergeable esym s = none)
        ∧ (∀ frag off, get_fragment m (esym.st_value : Int) = some (frag, off) →
          reattach_symbol mergeable esym s =
            some { s with origin := .frag frag, value := off }))
    ∧ (∀ (this : InputFile) (elf_syms : List ElfSym)
        (mergeable : Nat → Option MergeableSec) (nsyms idx : Nat) (r : Reloc)
        (esym : ElfSym) (m : MergeableSec),
        elf_syms.get? r.r_sym = some esym → esym.st_type = STT_SECTION →
        mergeable esym.st_shndx = some m →
        (get_fragment m ((esym.st_value : Int) + r.r_addend) = none →
          reattach_reloc this elf_syms mergeable nsyms idx r = .fatal)
        ∧ (∀ frag off,
          get_fragment m ((esym.st_value : Int) + r.r_addend)
            = some (frag, off) →
          ∃ fsym, reattach_reloc this elf_syms mergeable nsyms idx r
              = .rewritten { r_sym := nsyms + idx, r_addend := r.r_addend } fsym
            ∧ fsym.name = strFragment
            ∧ fsym.visibility = STV_HIDDEN
            ∧ fsym.file = some this
            ∧ fsym.sym_idx = r.r_sym
            ∧ fsym.origin = .frag frag
            ∧ fsym.value = off - r.r_addend
            ∧ fsym.value + r.r_addend = off
            ∧ ∃ st, m.frag_starts.get? frag = some st
                ∧ (st : Int) + (fsym.value + r.r_addend)
                    = (esym.st_value : Int) + r.r_addend)) := by
  constructor
  · intro mergeable esym s m habs hcom hund hm hres
    constructor
    · intro hnone
      simp only [reattach_symbol, habs, hcom, hund, hm, hres, hnone,
        Bool.or_self, Bool.false_eq_true, if_false, Bool.not_true]
    · intro frag off hsome
      simp only [reattach_symbol, habs, hcom, hund, hm, hres, hsome,
        Bool.or_self, Bool.false_eq_true, if_false, Bool.not_true]
  · intro this elf_syms mergeable nsyms idx r esym m hget htype hm
    have hbne : (esym.st_type != STT_SECTION) = false := by
      simp [htype]
    constructor
    · intro hnone
      simp only [reattach_reloc, hget, hbne, hm, hnone, Bool.false_eq_true,
        if_false]
    · intro frag off hsome
      obtain ⟨st, hst, hsum, hnn, hlt⟩ :=
        get_fragment_spec m ((esym.st_value : Int) + r.r_addend) frag off hsome
      refine ⟨{ file := some this, esym := esym, origin := .frag frag,
                name := strFragment, value := off - r.r_addend,
                sym_idx := r.r_sym, visibility := STV_HIDDEN }, ?_,
              rfl, rfl, rfl, rfl, rfl, rfl,
              (by show off - r.r_addend + r.r_addend = off; omega), st, hst,
              (by show (st : Int) + (off - r.r_addend + r.r_addend)
                    = (esym.st_value : Int) + r.r_addend
                  omega)⟩
      simp only [reattach_reloc, hget, hbne, hm, hsome, Bool.false_eq_true,
        if_false]

theorem reattach_section_pieces_rule_witness :
    ∃ fsym, reattach_reloc {}
        [{ st_type := STT_SECTION, st_shndx := 4, st_value := 0 }]
        (fun k => if k = 4 then
            some { resolved := true, frag_starts := [0, 12], size := 20 }
          else none)
        1 0 ⟨0, 12⟩
        = .rewritten ⟨1, 12⟩ fsym
      ∧ fsym.value + 12 = 0
      ∧ fsym.name = strFragment := by
  obtain ⟨fsym, h1, h2, h3, h4, h5, h6, h7, h8, h9⟩ :=
    (reattach_section_pieces_rule.2 {}
      [{ st_type := STT_SECTION, st_shndx := 4, st_value := 0 }]
      (fun k => if k = 4 then
          some { resolved := true, frag_starts := [0, 12], size := 20 }
        else none)
      1 0 ⟨0, 12⟩ { st_type := STT_SECTION, st_shndx := 4, st_value := 0 }
      { resolved := true, frag_starts := [0, 12], size := 20 }
      rfl rfl (by decide)).2 1 0 (by decide)
  exact ⟨fsym, h1, by rw [h8], h2⟩

theorem crel_loop_length (is_rela : Bool) (scale n : Nat) (st : CrelState)
    (bytes : List Nat) (recs : List ElfRel)
    (h : crel_loop is_rela scale n st bytes = some recs) :
    recs.length = n := by
  induction n generalizing st bytes recs with
  | zero =>
    simp only [crel_loop, Option.some_inj] at h
    subst h
    rfl
  | succ n ih =>
    unfold crel_loop at h
    split at h
    · exact Option.noConfusion h
    · split at h
      · exact Option.noConfusion h
      · rename_i r heq recs0 hl
        simp only [Option.some_inj] at h
        subst h
        simp [ih _ _ _ hl]

theorem crel_step_inv (is_rela : Bool) (scale : Nat) (st st2 : CrelState)
    (flags : Nat) (p1 rest : List Nat)
    (h : crel_step is_rela scale st (flags :: p1) = some (st2, rest)) :
    ∃ delta p2 d1 p3 d2 p4 d3,
      crel_delta (if is_rela then 3 else 2) flags p1 = some (delta, p2)
      ∧ read_sleb_if (flags &&& 1 != 0) st.symidx p2 = some (d1, p3)
      ∧ read_sleb_if (flags &&& 2 != 0) st.type p3 = some (d2, p4)
      ∧ read_sleb_if (is_rela && flags &&& 4 != 0) st.addend p4
          = some (d3, rest)
      ∧ st2 = { offset := (st.offset + (delta <<< scale)) % 2 ^ 64,
                type := d2, symidx := d1, addend := d3 } := by
  have hb : crel_step_flags is_rela scale st flags p1 = some (st2, rest) := h
  unfold crel_step_flags at hb
  rw [Option.bind_eq_some] at hb
  obtain ⟨d, hd, hb⟩ := hb
  rw [Option.bind_eq_some] at hb
  obtain ⟨s1, h1, hb⟩ := hb
  rw [Option.bind_eq_some] at hb
  obtain ⟨s2, h2, hb⟩ := hb
  rw [Option.map_eq_some'] at hb
  obtain ⟨s3, h3, heq⟩ := hb
  simp only [Prod.mk.injEq] at heq
  obtain ⟨hst, hrest⟩ := heq
  subst hrest
  exact ⟨d.1, d.2, s1.1, s1.2, s2.1, s2.2, s3.1,
    by simpa using hd, by simpa using h1, by simpa using h2,
    by simpa using h3, hst.symm⟩

/-- C2: the CREL decoder reads the ULEB-128 header H into a 64-bit value;
it is fatal exactly when bit 2 of H (is_rela) is set on a REL-only target;
on success it emits exactly H >>> 3 records; each loop iteration decodes the
flags byte F with nflags flag bits, computes the offset delta as the claim
states it (an extra ULEB above the in-byte bits when bit 7 of F is set,
otherwise F shifted down), advances offset by delta shifted by scale modulo
2 to the 64, and adds one decoded SLEB to symidx, type and (when is_rela)
addend exactly when bits 0, 1 and 2 of F are set. -/
theorem decode_crel_rule (abi_is_rela : Bool) (bytes : List Nat) :
    (decode_crel abi_is_rela bytes = .fatal ↔
      ∃ h rest, read_uleb bytes = some (h, rest)
        ∧ (h % 2 ^ 64) &&& 0b100 ≠ 0 ∧ abi_is_rela = false)
    ∧ (∀ recs, decode_crel abi_is_rela bytes = .ok recs →
        ∃ h rest, read_uleb bytes = some (h, rest)
          ∧ recs.length = (h % 2 ^ 64) >>> 3
          ∧ crel_loop ((h % 2 ^ 64) &&& 0b100 != 0) ((h % 2 ^ 64) &&& 0b11)
              ((h % 2 ^ 64) >>> 3) {} rest = some recs)
    ∧ (∀ (is_rela : Bool) (scale : Nat) (st st2 : CrelState) (flags : Nat)
        (p1 rest : List Nat),
        crel_step is_rela scale st (flags :: p1) = some (st2, rest) →
        ∃ delta p2 d1 p3 d2 p4 d3,
          crel_delta (if is_rela then 3 else 2) flags p1 = some (delta, p2)
          ∧ read_sleb_if (flags &&& 1 != 0) st.symidx p2 = some (d1, p3)
          ∧ read_sleb_if (flags &&& 2 != 0) st.type p3 = some (d2, p4)
          ∧ read_sleb_if (is_rela && flags &&& 4 != 0) st.addend p4
              = some (d3, rest)
          ∧ st2.offset = (st.offset + (delta <<< scale)) % 2 ^ 64
          ∧ st2.symidx = d1 ∧ st2.type = d2 ∧ st2.addend = d3)
    ∧ (∀ (v : Int) (b : List Nat), read_sleb_if false v b = some (v, b))
    ∧ (∀ (v d : Int) (b rest : List Nat), read_sleb b = some (d, rest) →
        read_sleb_if true v b = some (v + d, rest))
    ∧ (∀ (nflags flags : Nat) (b : List Nat), flags &&& 0x80 = 0 →
        crel_delta nflags flags b = some (flags >>> nflags, b))
    ∧ (∀ (nflags flags u : Nat) (b rest : List Nat), flags &&& 0x80 ≠ 0 →
        read_uleb b = some (u, rest) →
        crel_delta nflags flags b =
          some ((((u <<< (7 - nflags)) ||| ((flags &&& 0x7f) >>> nflags))
                   % 2 ^ 64), rest)) := by
  refine ⟨?_, ?_, ?_, ?_, ?_, ?_, ?_⟩
  · constructor
    · intro hf
      unfold decode_crel at hf
      split at hf
      · exact CrelResult.noConfusion hf
      · rename_i h heq
        unfold decode_crel_hdr at hf
        split at hf
        · rename_i hc
          refine ⟨h.1, h.2, by rw [heq], ?_, ?_⟩
          · intro hz
            rw [hz] at hc
            simp at hc
          · rcases Bool.and_eq_true_iff.mp hc with ⟨-, hb⟩
            simpa using hb
        · split at hf
          · exact CrelResult.noConfusion hf
          · exact CrelResult.noConfusion hf
    · rintro ⟨hd, hrest, hu, hbit, habi⟩
      subst habi
      have hc : ((hd % 2 ^ 64 &&& 0b100 != 0) && !false) = true := by
        simpa using hbit
      simp only [decode_crel, hu, decode_crel_hdr, hc, if_true]
  · intro recs hok
    unfold decode_crel at hok
    split at hok
    · exact CrelResult.noConfusion hok
    · rename_i h heq
      unfold decode_crel_hdr at hok
      split at hok
      · exact CrelResult.noConfusion hok
      · split at hok
        · exact CrelResult.noConfusion hok
        · rename_i recs0 hl
          have hr : recs0 = recs := by
            simpa using hok
          subst hr
          exact ⟨h.1, h.2, by rw [heq], crel_loop_length _ _ _ _ _ _ hl, hl⟩
  · intro is_rela scale st st2 flags p1 rest h
    obtain ⟨delta, p2, d1, p3, d2, p4, d3, h1, h2, h3, h4, h5⟩ :=
      crel_step_inv is_rela scale st st2 flags p1 rest h
    subst h5
    exact ⟨delta, p2, d1, p3, d2, p4, d3, h1, h2, h3, h4, rfl, rfl, rfl, rfl⟩
  · intro v b
    rfl
  · intro v d b rest h
    unfold read_sleb_if
    rw [h]
    rfl
  · intro nflags flags b hz
    unfold crel_delta
    simp [hz]
  · intro nflags flags u b rest hnz hu
    unfold crel_delta
    rw [if_pos (by simpa using hnz), hu]

theorem decode_crel_rule_witness :
    decode_crel true [20, 9, 5, 16] =
      .ok [⟨1, 0, 5, 0⟩, ⟨3, 0, 5, 0⟩]
    ∧ ([⟨1, 0, 5, 0⟩, ⟨3, 0, 5, 0⟩] : List ElfRel).length = (20 % 2 ^ 64) >>> 3 := by
  constructor
  · rfl
  · obtain ⟨hd, hrest, hu, hlen, -⟩ :=
      (decode_crel_rule true [20, 9, 5, 16]).2.1 [⟨1, 0, 5, 0⟩, ⟨3, 0, 5, 0⟩]
        (by rfl)
    have : hd = 20 ∧ hrest = [9, 5, 16] := by
      have := hu.symm.trans (by rfl : read_uleb [20, 9, 5, 16] = some (20, [9, 5, 16]))
      simpa using this
    rw [← this.1]
    exact hlen

/-- C10: when the DSO resolution pass installs the DSO definition as a
symbol's winner it records the symbol as weak unconditionally, regardless of
the binding of the defining entry, whereas the relocatable-object pass
records the weak flag of the defining entry. -/
theorem resolve_is_weak_rule :
    (∀ (this : InputFile) (i verIdx : Nat) (esym : ElfSym) (skip_dso : Bool)
        (s : SymState) (alias2 : Option (SymState × Nat)),
        esym.is_undef = false → skip_dso = false →
        get_rank this esym false < get_rank_sym s →
        (shared_resolve_entry this i verIdx esym skip_dso s alias2).1.is_weak
          = true)
    ∧ (∀ (this : InputFile) (esym : ElfSym) (isec : Option Nat) (i dv : Nat)
        (s : SymState),
        get_rank this esym (!this.is_reachable) < get_rank_sym s →
        (resolve_update this esym isec i dv s).is_weak = esym.is_weak) := by
  constructor
  · intro this i verIdx esym skip_dso s alias2 hu hsk hlt
    simp only [shared_resolve_entry, hu, hsk, Bool.or_self, Bool.false_eq_true,
      if_false, if_pos hlt]
    cases alias2 with
    | none => simp [install_dso]
    | some p => simp [install_dso]
  · intro this esym isec i dv s hlt
    simp [resolve_update, if_pos hlt, install_obj]

theorem resolve_is_weak_rule_witness :
    (shared_resolve_entry ⟨true, 0, true⟩ 0 0 { st_shndx := 1 } false {}
        none).1.is_weak = true
    ∧ (resolve_update ⟨false, 0, true⟩ { st_shndx := 1, st_bind := STB_GLOBAL }
        none 0 0 {}).is_weak
        = ElfSym.is_weak { st_shndx := 1, st_bind := STB_GLOBAL } := by
  exact ⟨resolve_is_weak_rule.1 _ _ _ _ _ _ _ rfl rfl (by decide),
         resolve_is_weak_rule.2 _ _ _ _ _ _ (by decide)⟩

end Mold
